import Mathlib

/-
Shallow embedding of `korndex` (`src/main.rs`): a one-shot transaction-locator
index builder over a validated chain, plus the point-lookup path.

Modelling choices, in one place:
* A transaction is abstracted to its content-derived identifier (`compute_txid()`
  rendered by `to_string()` — an external hash from the `bitcoin` crate).
* A block is its ordered decoded transaction list (`block.txdata`).
* A chain element (`BlockRec`) is what one iteration of the walk sees: the block
  height reported by the kernel, and `decoded = some b` iff
  `read_block_data(..).unwrap()` + `deserialize(&raw_block)` would succeed,
  with `b` the decoded block; `none` models unreadable/undecodable raw bytes.
  The chain list is in walk order: tip first, genesis last (`prev()` descent).
* The LMDB table is modelled observationally as an association list with
  overwrite-on-put; `Except.error s` carries the durably visible store at the
  point a build aborts (uncommitted write transactions are discarded by LMDB).
* Machine integers: block heights are `Int` (i32 — no arithmetic is performed
  on them), positions and counters are `Nat`; the one place usize subtraction
  can underflow (`block.txdata.len() - 1`) is modelled explicitly as a failure.
-/

namespace Korndex

/-- A transaction, abstracted to its content-derived identifier: `txid` models
the string `block.txdata[i].compute_txid().to_string()` computes in
`src/main.rs`. -/
structure Tx where
  txid : String
  deriving DecidableEq, Repr, Inhabited

/-- A decoded block: the ordered transaction list `block.txdata` produced by
`bitcoin::consensus::deserialize`. -/
structure Block where
  txdata : List Tx
  deriving DecidableEq, Repr, Inhabited

/-- One step of the chain walk as `main` sees it: the height from
`block_index.info().unwrap().height`, and the outcome of fetching and decoding
the block's raw bytes (`none` = `read_block_data`/`deserialize` would fail). -/
structure BlockRec where
  height : Int
  decoded : Option Block
  deriving DecidableEq, Repr, Inhabited

/-- The transient per-transaction record built inside the parallel map
(struct `TxIndex` in the source). -/
structure TxIndex where
  txid : String
  blockHeight : Int
  positionInBlock : Nat
  deriving DecidableEq, Repr, Inhabited

/-- The persisted value (struct `TxIndexEntry` in the source, serialized with
bincode; the encoding itself is private to the store, so the record is kept
structured here). -/
structure TxIndexEntry where
  blockHeight : Int
  positionInBlock : Nat
  deriving DecidableEq, Repr, Inhabited

/-- The four `libbitcoinkernel` chain types selectable on the command line. -/
inductive ChainType where
  | MAINNET
  | TESTNET
  | REGTEST
  | SIGNET
  deriving DecidableEq, Repr

/-- Per-character lowercasing, modelling Rust's `to_lowercase()` on the network
argument (the accepted names are ASCII, where per-character lowercasing and
Unicode lowercasing agree; defined structurally so proofs can evaluate it). -/
def strToLower (s : String) : String := ⟨s.data.map Char.toLower⟩

/-- The `match args.network.to_lowercase().as_str()` at the top of `main`:
four fixed variants select a chain type; any other string is a configuration
error (`eprintln!` + `std::process::exit(1)`, modelled as `none`), hit before
any kernel, store or index work. -/
def parseNetwork (s : String) : Option ChainType :=
  if strToLower s = "mainnet" then some ChainType.MAINNET
  else if strToLower s = "testnet" then some ChainType.TESTNET
  else if strToLower s = "regtest" then some ChainType.REGTEST
  else if strToLower s = "signet" then some ChainType.SIGNET
  else none

/-- The closure passed to the parallel map over `0..block.txdata.len() - 1`:
worker `i` records the identifier of the transaction at block index `i + 1`
(skipping the coinbase at index 0) under position `i`. -/
def txIndexOf (h : Int) (b : Block) (i : Nat) : TxIndex :=
  { txid := (b.txdata.getD (i + 1) default).txid
    blockHeight := h
    positionInBlock := i }

/-- Indexing one block: `(0..block.txdata.len() - 1).into_par_iter().map(..)`.
On a zero-transaction block the usize expression `block.txdata.len() - 1`
underflows (panic in debug builds; in release it wraps and the immediate
`block.txdata[i + 1]` indexing panics), so that case is a failure, not an
empty result. -/
def indexBlock (h : Int) (b : Block) : Option (List TxIndex) :=
  if b.txdata.length = 0 then none
  else some ((List.range (b.txdata.length - 1)).map (txIndexOf h b))

/-- The persisted table, observationally: key/value pairs with unique keys. -/
abbrev Store := List (String × TxIndexEntry)

/-- LMDB `txn.put(db, &entry.txid, &serialized, WriteFlags::empty())`:
overwrites any value previously stored under the same key. -/
def storePut (s : Store) (k : String) (v : TxIndexEntry) : Store :=
  s.filter (fun p => !(p.1 == k)) ++ [(k, v)]

/-- LMDB `txn.get(db, &txid)` followed by `bincode::deserialize`. -/
def storeGet (s : Store) (k : String) : Option TxIndexEntry :=
  (s.find? (fun p => p.1 == k)).map Prod.snd

/-- The per-batch commit body: `for entry in tx_batch.iter() { txn.put(..) }`
followed by `txn.commit()`. -/
def commitBatch (s : Store) (es : List TxIndex) : Store :=
  es.foldl (fun acc e => storePut acc e.txid ⟨e.blockHeight, e.positionInBlock⟩) s

/-- The value that survives for key `k` after putting `es` in order: the last
write wins. -/
def lastWrite (es : List TxIndex) (k : String) : Option TxIndexEntry :=
  (es.reverse.find? (fun e => e.txid == k)).map
    (fun e => ⟨e.blockHeight, e.positionInBlock⟩)

/-- The entries one walked block contributes when the build gets past it
(defined for fully successful runs; failing blocks abort the build before
contributing anything). -/
def blockEntries (br : BlockRec) : List TxIndex :=
  match br.decoded with
  | none => []
  | some b => (indexBlock br.height b).getD []

/-- All entries a chain's blocks contribute, in processing (walk) order. -/
def allEntries (chain : List BlockRec) : List TxIndex :=
  (chain.map blockEntries).flatten

/-- The identifiers of one block's non-coinbase transactions (the transactions
at block indices 1 and above), phrased directly from the data model. -/
def ncTxids (br : BlockRec) : List String :=
  match br.decoded with
  | none => []
  | some b => (b.txdata.drop 1).map (fun t => t.txid)

/-- All identifiers that appear as a non-coinbase transaction on the chain. -/
def nonCoinbaseTxids (chain : List BlockRec) : List String :=
  (chain.map ncTxids).flatten

/-- A block the build loop gets through without aborting: it decodes, and its
transaction list is non-empty (so the coinbase-exclusion arithmetic is safe). -/
def goodBlock (br : BlockRec) : Bool :=
  match br.decoded with
  | none => false
  | some b => !b.txdata.isEmpty

/-- Whether identifier `k` occurs as a non-coinbase transaction of this block. -/
def blockContains (k : String) (br : BlockRec) : Bool :=
  match br.decoded with
  | none => false
  | some b => (b.txdata.drop 1).any (fun t => t.txid == k)

/-- The build loop's mutable state: the LMDB store contents so far, the pending
`tx_batch`, `block_counter`, and how many write transactions have committed. -/
structure BuildState where
  store : Store
  txBatch : List TxIndex
  blockCounter : Nat
  commitCount : Nat
  deriving DecidableEq, Repr

/-- Tail of one `while` iteration once a block's transactions are collected:
extend `tx_batch`, bump `block_counter`, and when `block_counter % batch_size
== 0` open a write transaction, put every pending entry and commit.
`commitFails n` injects a failure of the `n`-th write transaction
(`begin_rw_txn()?`/`txn.commit()?` propagating an error aborts the build, and
LMDB discards the uncommitted puts, leaving the store untouched). -/
def stepCommit (batchSize : Nat) (commitFails : Nat → Bool) (st : BuildState)
    (entries : List TxIndex) : Except Store BuildState :=
  if (st.blockCounter + 1) % batchSize == 0 then
    if commitFails st.commitCount then Except.error st.store
    else Except.ok ⟨commitBatch st.store (st.txBatch ++ entries), [],
      st.blockCounter + 1, st.commitCount + 1⟩
  else Except.ok ⟨st.store, st.txBatch ++ entries, st.blockCounter + 1,
    st.commitCount⟩

/-- One iteration of `while let Ok(ref block_index) = block_index_res`:
a failed `read_block_data`/`deserialize` (`.unwrap()` panic) or the
zero-transaction underflow aborts the whole build, with only previously
committed batches durably visible. -/
def buildStep (batchSize : Nat) (commitFails : Nat → Bool) (st : BuildState)
    (br : BlockRec) : Except Store BuildState :=
  match br.decoded with
  | none => Except.error st.store
  | some b =>
    match indexBlock br.height b with
    | none => Except.error st.store
    | some entries => stepCommit batchSize commitFails st entries

/-- The build's `while` loop over the walked chain (tip first, genesis last). -/
def buildLoop (batchSize : Nat) (commitFails : Nat → Bool) :
    List BlockRec → BuildState → Except Store BuildState
  | [], st => Except.ok st
  | br :: rest, st =>
    match buildStep batchSize commitFails st br with
    | Except.error s => Except.error s
    | Except.ok st' => buildLoop batchSize commitFails rest st'

/-- The trailing `if !tx_batch.is_empty() { .. commit .. }` after the walk. -/
def finalizeBuild (commitFails : Nat → Bool) (st : BuildState) :
    Except Store Store :=
  if st.txBatch.isEmpty then Except.ok st.store
  else if commitFails st.commitCount then Except.error st.store
  else Except.ok (commitBatch st.store st.txBatch)

/-- The whole index-building section of `main`, starting from the freshly
created (empty) `txindex` table. The source fixes `batch_size = 1000`; it is a
parameter here so the statements cover any configured batch size. On abort the
`Except.error` payload is the durably visible store: exactly the batches
committed before the failure. -/
def build (batchSize : Nat) (commitFails : Nat → Bool) (chain : List BlockRec) :
    Except Store Store :=
  match buildLoop batchSize commitFails chain ⟨[], [], 0, 0⟩ with
  | Except.error s => Except.error s
  | Except.ok st => finalizeBuild commitFails st

/-- The build entry point including the network-argument check: `main` parses
the network before any kernel/store/index work, so an invalid network never
touches the chain. On success the selected chain type accompanies the built
store. -/
def runBuild (network : String) (batchSize : Nat) (commitFails : Nat → Bool)
    (chain : List BlockRec) : Except String (ChainType × Store) :=
  match parseNetwork network with
  | none => Except.error ("Invalid network type: " ++ network)
  | some ct =>
    match build batchSize commitFails chain with
    | Except.error _ => Except.error "build aborted"
    | Except.ok s => Except.ok (ct, s)

/-- Outcome of the retrieval section: either the key is absent (`txn.get`
misses — "not indexed"), or a transaction is produced, or the process panics
(`todo!()` on a failed `get_block_index_by_height`, `.unwrap()` on
`read_block_data`/`deserialize`, or out-of-bounds indexing). -/
inductive LocateResult where
  | notFound
  | found (tx : Tx)
  | crash
  deriving DecidableEq, Repr

/-- `get_block_index_by_height` + `read_block_data` + `deserialize`, combined:
`some b` iff a block at that height exists and its bytes still fetch and
decode. -/
def fetchBlock (chain : List BlockRec) (h : Int) : Option Block :=
  match chain.find? (fun br => br.height == h) with
  | none => none
  | some br => br.decoded

/-- The retrieval section of `main` (lines 143–153): look the identifier up in
the store; if present, refetch the recorded block and return
`block.txdata[entry.position_in_block]` — note the source indexes with the
stored position itself, not `position + 1`. -/
def locate (s : Store) (chain : List BlockRec) (txid : String) : LocateResult :=
  match storeGet s txid with
  | none => LocateResult.notFound
  | some e =>
    match fetchBlock chain e.blockHeight with
    | none => LocateResult.crash
    | some b =>
      match b.txdata[e.positionInBlock]? with
      | none => LocateResult.crash
      | some tx => LocateResult.found tx

/-- Slot-level model of rayon's `into_par_iter().map(..).collect()` over
`0..n`: worker `i` computes `f i` and deposits it in slot `i`; `order` is the
order in which workers happen to complete. -/
def runSched (n : Nat) (f : Nat → α) (order : List Nat) : List (Option α) :=
  order.foldl (fun slots i => slots.set i (some (f i))) (List.replicate n none)

/-- Reading the slots out in index order once all workers are done; `none`
only if some slot was never filled (impossible for a complete schedule). -/
def collectSlots : List (Option α) → Option (List α)
  | [] => some []
  | none :: _ => none
  | some a :: rest => (collectSlots rest).map (fun l => a :: l)

/-- A parallel indexed map with explicit completion order. -/
def parMap (n : Nat) (f : Nat → α) (order : List Nat) : Option (List α) :=
  collectSlots (runSched n f order)

/-- `indexBlock` with the parallel workers' completion order made explicit. -/
def indexBlockSched (order : List Nat) (h : Int) (b : Block) :
    Option (List TxIndex) :=
  if b.txdata.length = 0 then none
  else parMap (b.txdata.length - 1) (txIndexOf h b) order

/-- `buildStep` with an explicit completion order for this block's workers. -/
def buildStepSched (batchSize : Nat) (commitFails : Nat → Bool)
    (order : List Nat) (st : BuildState) (br : BlockRec) :
    Except Store BuildState :=
  match br.decoded with
  | none => Except.error st.store
  | some b =>
    match indexBlockSched order br.height b with
    | none => Except.error st.store
    | some entries => stepCommit batchSize commitFails st entries

/-- The build loop with one completion order per walked block. -/
def buildLoopSched (batchSize : Nat) (commitFails : Nat → Bool) :
    List BlockRec → List (List Nat) → BuildState → Except Store BuildState
  | [], _, st => Except.ok st
  | br :: rest, orders, st =>
    match buildStepSched batchSize commitFails (orders.headD []) st br with
    | Except.error s => Except.error s
    | Except.ok st' => buildLoopSched batchSize commitFails rest orders.tail st'

/-- The whole build with explicit per-block completion orders. -/
def buildSched (batchSize : Nat) (commitFails : Nat → Bool)
    (chain : List BlockRec) (orders : List (List Nat)) : Except Store Store :=
  match buildLoopSched batchSize commitFails chain orders ⟨[], [], 0, 0⟩ with
  | Except.error s => Except.error s
  | Except.ok st => finalizeBuild commitFails st

/-- A schedule list is complete for a chain when each decodable block's order
is a permutation of its worker indices `0..len-1` (every spawned worker
completes exactly once — what rayon guarantees). -/
def schedsOk : List BlockRec → List (List Nat) → Bool
  | [], _ => true
  | br :: rest, orders =>
    (match br.decoded with
     | none => true
     | some b => (orders.headD []).isPerm (List.range (b.txdata.length - 1)))
    && schedsOk rest orders.tail

/-- Filtering by a predicate the searched-for predicate implies does not
change the result of `find?`. -/
theorem find?_filter_of_imp {α : Type} (p q : α → Bool) (l : List α)
    (h : ∀ x, p x = true → q x = true) : (l.filter q).find? p = l.find? p := by
  induction l with
  | nil => rfl
  | cons x xs ih =>
    cases hq : q x with
    | false =>
      have hp : p x = false := by
        cases hpx : p x
        · rfl
        · simp [h x hpx] at hq
      rw [List.filter_cons, if_neg (by simp [hq]), ih,
        List.find?_cons_of_neg _ (by simp [hp])]
    | true =>
      cases hpx : p x with
      | false =>
        rw [List.filter_cons, if_pos hq, List.find?_cons_of_neg _ (by simp [hpx]),
          ih, List.find?_cons_of_neg _ (by simp [hpx])]
      | true =>
        rw [List.filter_cons, if_pos hq, List.find?_cons_of_pos _ hpx,
          List.find?_cons_of_pos _ hpx]

/-- Reading through an overwriting put: the put key returns the new value, any
other key reads as before. -/
theorem storeGet_storePut (s : Store) (k' k : String) (v : TxIndexEntry) :
    storeGet (storePut s k' v) k = if k = k' then some v else storeGet s k := by
  unfold storeGet storePut
  rw [List.find?_append]
  by_cases hkk : k = k'
  · subst hkk
    rw [if_pos rfl]
    have hnone : (s.filter (fun p => !(p.1 == k))).find? (fun p => p.1 == k) = none := by
      rw [List.find?_eq_none]
      intro x hx
      rw [List.mem_filter] at hx
      simpa using hx.2
    rw [hnone]
    simp [List.find?_cons]
  · rw [if_neg hkk]
    have h2 : ([(k', v)] : Store).find? (fun p => p.1 == k) = none := by
      rw [List.find?_eq_none]
      intro x hx
      rw [List.mem_singleton] at hx
      subst hx
      simp
      exact fun h => hkk h.symm
    rw [h2, Option.or_none,
      find?_filter_of_imp _ _ s (by intro x hx; simp at hx ⊢; rw [hx]; exact hkk)]

/-- `lastWrite` on a cons: the head entry is only seen if no later entry
matches. -/
theorem lastWrite_cons (e : TxIndex) (es : List TxIndex) (k : String) :
    lastWrite (e :: es) k =
      (lastWrite es k).or (if e.txid == k then some ⟨e.blockHeight, e.positionInBlock⟩ else none) := by
  unfold lastWrite
  rw [List.reverse_cons, List.find?_append]
  cases h : (es.reverse.find? fun x => x.txid == k) with
  | none =>
    simp only [h, Option.none_or, Option.map_none']
    cases he : (e.txid == k) <;> simp [List.find?_cons, he]
  | some a =>
    simp [h]

/-- `lastWrite` over an append: later entries shadow earlier ones. -/
theorem lastWrite_append (l₁ l₂ : List TxIndex) (k : String) :
    lastWrite (l₁ ++ l₂) k = (lastWrite l₂ k).or (lastWrite l₁ k) := by
  unfold lastWrite
  rw [List.reverse_append, List.find?_append]
  cases h : (l₂.reverse.find? fun x => x.txid == k) with
  | none => simp [h]
  | some a => simp [h]

/-- `lastWrite` finds something exactly when some entry carries the key. -/
theorem lastWrite_isSome (es : List TxIndex) (k : String) :
    (lastWrite es k).isSome = true ↔ ∃ e ∈ es, e.txid = k := by
  unfold lastWrite
  rw [Option.isSome_map']
  rw [List.find?_isSome]
  constructor
  · rintro ⟨x, hx, hpx⟩
    exact ⟨x, List.mem_reverse.mp hx, by simpa using hpx⟩
  · rintro ⟨x, hx, hpx⟩
    exact ⟨x, List.mem_reverse.mpr hx, by simpa using hpx⟩

/-- The surviving value comes from an actual entry with the looked-up key. -/
theorem lastWrite_eq_some (es : List TxIndex) (k : String) (v : TxIndexEntry)
    (h : lastWrite es k = some v) :
    ∃ e ∈ es, e.txid = k ∧ v = ⟨e.blockHeight, e.positionInBlock⟩ := by
  unfold lastWrite at h
  cases hf : (es.reverse.find? fun e => e.txid == k) with
  | none => rw [hf] at h; cases h
  | some e =>
    rw [hf] at h
    refine ⟨e, List.mem_reverse.mp (List.mem_of_find?_eq_some hf), ?_, ?_⟩
    · have := List.find?_some hf
      simpa using this
    · simpa using h.symm

/-- Committing a batch of puts realizes last-write-wins over the batch, with
the prior store contents as fallback. -/
theorem storeGet_commitBatch (es : List TxIndex) (s : Store) (k : String) :
    storeGet (commitBatch s es) k = (lastWrite es k).or (storeGet s k) := by
  induction es generalizing s with
  | nil => simp [commitBatch, lastWrite]
  | cons e rest ih =>
    show storeGet (commitBatch (storePut s e.txid ⟨e.blockHeight, e.positionInBlock⟩) rest) k = _
    rw [ih, lastWrite_cons, Option.or_assoc, storeGet_storePut]
    cases hl : lastWrite rest k with
    | some a => rfl
    | none =>
      simp only [Option.none_or]
      by_cases hk : k = e.txid
      · rw [if_pos hk, if_pos (by simp [hk])]
        simp
      · rw [if_neg hk, if_neg (by simpa using fun h => hk h.symm)]
        simp

/-- Committing consecutive batches is committing their concatenation. -/
theorem commitBatch_append (s : Store) (l₁ l₂ : List TxIndex) :
    commitBatch s (l₁ ++ l₂) = commitBatch (commitBatch s l₁) l₂ :=
  List.foldl_append _ _ _ _

/-- An overwriting put preserves key uniqueness. -/
theorem nodup_storePut (s : Store) (k : String) (v : TxIndexEntry)
    (h : (s.map Prod.fst).Nodup) : ((storePut s k v).map Prod.fst).Nodup := by
  unfold storePut
  rw [List.map_append, List.nodup_append]
  refine ⟨((List.filter_sublist s).map Prod.fst).nodup h, by simp, ?_⟩
  intro a ha
  simp only [List.map_cons, List.map_nil, List.mem_singleton]
  intro hak
  subst hak
  rw [List.mem_map] at ha
  obtain ⟨p, hp, hpa⟩ := ha
  rw [List.mem_filter] at hp
  revert hpa
  simpa using hp.2

/-- Committed stores keep at most one row per identifier. -/
theorem nodup_commitBatch (es : List TxIndex) (s : Store)
    (h : (s.map Prod.fst).Nodup) : ((commitBatch s es).map Prod.fst).Nodup := by
  induction es generalizing s with
  | nil => exact h
  | cons e rest ih =>
    exact ih _ (nodup_storePut _ _ _ h)

/-- Reading positions `0..len-1` of a list with `getD` enumerates the list. -/
theorem map_getD_range {α β : Type} (g : α → β) (d : α) (l : List α) :
    (List.range l.length).map (fun i => g (l.getD i d)) = l.map g := by
  induction l with
  | nil => rfl
  | cons x xs ih =>
    rw [List.length_cons, List.range_succ_eq_map, List.map_cons, List.map_map]
    have h1 : ((fun i => g ((x :: xs).getD i d)) ∘ Nat.succ) =
        fun i => g (xs.getD i d) := by
      funext i
      rw [Function.comp_apply, List.getD_cons_succ]
    rw [h1, ih, List.getD_cons_zero, List.map_cons]

/-- Every committed entry carries its own block's height. -/
theorem mem_blockEntries_height {e : TxIndex} {br : BlockRec}
    (h : e ∈ blockEntries br) : e.blockHeight = br.height := by
  unfold blockEntries at h
  cases hd : br.decoded with
  | none => rw [hd] at h; simp at h
  | some b =>
    rw [hd] at h
    dsimp only at h
    unfold indexBlock at h
    by_cases h0 : b.txdata.length = 0
    · rw [if_pos h0] at h; simp at h
    · rw [if_neg h0] at h
      rw [Option.getD_some, List.mem_map] at h
      obtain ⟨i, _, rfl⟩ := h
      rfl

/-- Per-block key inventory: the txids a block's entries carry are exactly the
identifiers of its non-coinbase transactions. -/
theorem blockEntries_map_txid (br : BlockRec) :
    (blockEntries br).map (fun e => e.txid) = ncTxids br := by
  unfold blockEntries ncTxids
  cases hd : br.decoded with
  | none => rfl
  | some b =>
    dsimp only
    unfold indexBlock txIndexOf
    cases hb : b.txdata with
    | nil => simp
    | cons t ts =>
      rw [List.length_cons, if_neg (Nat.succ_ne_zero ts.length), Option.getD_some,
        List.map_map, Nat.add_sub_cancel]
      have h1 : ((fun e => e.txid) ∘ fun i =>
          ({ txid := ((t :: ts).getD (i + 1) default).txid, blockHeight := br.height,
             positionInBlock := i } : TxIndex)) =
          fun i => (ts.getD i default).txid := by
        funext i
        rw [Function.comp_apply, List.getD_cons_succ]
      rw [h1, List.drop_one, List.tail_cons]
      exact map_getD_range (fun t => t.txid) default ts

/-- A block contains an identifier (as a non-coinbase transaction) iff one of
its entries carries that identifier. -/
theorem blockContains_iff (k : String) (br : BlockRec) :
    blockContains k br = true ↔ ∃ e ∈ blockEntries br, e.txid = k := by
  have h1 : blockContains k br = true ↔ k ∈ ncTxids br := by
    unfold blockContains ncTxids
    cases br.decoded with
    | none => simp
    | some b =>
      dsimp only
      rw [List.any_eq_true]
      constructor
      · rintro ⟨x, hx, hpx⟩
        rw [List.mem_map]
        exact ⟨x, hx, by simpa using hpx⟩
      · intro hk
        rw [List.mem_map] at hk
        obtain ⟨x, hx, rfl⟩ := hk
        exact ⟨x, hx, by simp⟩
  rw [h1, ← blockEntries_map_txid br]
  simp [List.mem_map]

theorem allEntries_nil : allEntries [] = [] := rfl

theorem allEntries_cons (br : BlockRec) (rest : List BlockRec) :
    allEntries (br :: rest) = blockEntries br ++ allEntries rest := by
  unfold allEntries
  rw [List.map_cons, List.flatten_cons]

theorem allEntries_append (l₁ l₂ : List BlockRec) :
    allEntries (l₁ ++ l₂) = allEntries l₁ ++ allEntries l₂ := by
  unfold allEntries
  rw [List.map_append, List.flatten_append]

/-- Chain-wide key inventory. -/
theorem allEntries_map_txid (chain : List BlockRec) :
    (allEntries chain).map (fun e => e.txid) = nonCoinbaseTxids chain := by
  induction chain with
  | nil => rfl
  | cons br rest ih =>
    rw [allEntries_cons, List.map_append, ih, blockEntries_map_txid]
    rfl

/-- Splitting the walk: the loop over a concatenation runs the pieces in
sequence, stopping at the first abort. -/
theorem buildLoop_append (bs : Nat) (cf : Nat → Bool) (xs ys : List BlockRec)
    (st : BuildState) :
    buildLoop bs cf (xs ++ ys) st =
      match buildLoop bs cf xs st with
      | Except.error s => Except.error s
      | Except.ok st' => buildLoop bs cf ys st' := by
  induction xs generalizing st with
  | nil => rfl
  | cons br rest ih =>
    have hL : buildLoop bs cf ((br :: rest) ++ ys) st =
        (match buildStep bs cf st br with
         | Except.error s => Except.error s
         | Except.ok st₁ => buildLoop bs cf (rest ++ ys) st₁) := rfl
    have hR : buildLoop bs cf (br :: rest) st =
        (match buildStep bs cf st br with
         | Except.error s => Except.error s
         | Except.ok st₁ => buildLoop bs cf rest st₁) := rfl
    rw [hL, hR]
    cases buildStep bs cf st br with
    | error s => rfl
    | ok st₁ => exact ih st₁

/-- Any successfully processed walk leaves, in `store` plus the pending batch,
exactly the prior contents followed by every walked block's entries in order. -/
theorem buildLoop_ok_char (bs : Nat) (cf : Nat → Bool) (chain : List BlockRec) :
    ∀ (st st' : BuildState), buildLoop bs cf chain st = Except.ok st' →
      commitBatch st'.store st'.txBatch =
        commitBatch st.store (st.txBatch ++ allEntries chain) := by
  induction chain with
  | nil =>
    intro st st' h
    cases h
    rw [allEntries_nil, List.append_nil]
  | cons br rest ih =>
    intro st st' h
    have hstep0 : buildLoop bs cf (br :: rest) st =
        (match buildStep bs cf st br with
         | Except.error s => Except.error s
         | Except.ok st₁ => buildLoop bs cf rest st₁) := rfl
    rw [hstep0] at h
    cases hstep : buildStep bs cf st br with
    | error s => rw [hstep] at h; cases h
    | ok st₁ =>
      rw [hstep] at h
      have hmain := ih st₁ st' h
      unfold buildStep at hstep
      cases hd : br.decoded with
      | none => rw [hd] at hstep; cases hstep
      | some b =>
        rw [hd] at hstep
        dsimp only at hstep
        cases hib : indexBlock br.height b with
        | none => rw [hib] at hstep; cases hstep
        | some es =>
          rw [hib] at hstep
          dsimp only at hstep
          have hbe : blockEntries br = es := by
            unfold blockEntries
            rw [hd]
            dsimp only
            rw [hib]
            rfl
          unfold stepCommit at hstep
          rw [allEntries_cons, hbe]
          by_cases hcommit : ((st.blockCounter + 1) % bs == 0) = true
          · rw [if_pos hcommit] at hstep
            by_cases hcf : cf st.commitCount = true
            · rw [if_pos hcf] at hstep; cases hstep
            · rw [if_neg hcf] at hstep
              injection hstep with hstep
              subst hstep
              rw [hmain]
              show commitBatch (commitBatch st.store (st.txBatch ++ es))
                  ([] ++ allEntries rest) = _
              rw [List.nil_append, ← commitBatch_append, List.append_assoc]
          · rw [if_neg hcommit] at hstep
            injection hstep with hstep
            subst hstep
            rw [hmain]
            show commitBatch st.store ((st.txBatch ++ es) ++ allEntries rest) = _
            rw [List.append_assoc]

/-- A finished build is the sequential commit of every walked block's entries
into the initially empty store: batch boundaries leave no trace in the final
contents. -/
theorem build_ok_store (bs : Nat) (cf : Nat → Bool) (chain : List BlockRec)
    (s : Store) (h : build bs cf chain = Except.ok s) :
    s = commitBatch [] (allEntries chain) := by
  unfold build at h
  cases hloop : buildLoop bs cf chain ⟨[], [], 0, 0⟩ with
  | error s' => rw [hloop] at h; cases h
  | ok st' =>
    rw [hloop] at h
    have hchar := buildLoop_ok_char bs cf chain _ _ hloop
    unfold finalizeBuild at h
    dsimp only at h
    by_cases hemp : st'.txBatch.isEmpty = true
    · rw [if_pos hemp] at h
      injection h with h
      subst h
      have hnil : st'.txBatch = [] := List.isEmpty_iff.mp hemp
      rw [hnil] at hchar
      simpa [commitBatch] using hchar
    · rw [if_neg hemp] at h
      by_cases hcf : cf st'.commitCount = true
      · rw [if_pos hcf] at h; cases h
      · rw [if_neg hcf] at h
        injection h with h
        subst h
        simpa using hchar

/-- A step on a failing block (undecodable bytes or the zero-transaction
underflow) aborts with the current store. -/
theorem buildStep_bad (bs : Nat) (cf : Nat → Bool) (st : BuildState)
    (bad : BlockRec) (hbad : goodBlock bad = false) :
    buildStep bs cf st bad = Except.error st.store := by
  unfold buildStep
  unfold goodBlock at hbad
  cases hd : bad.decoded with
  | none => rfl
  | some b =>
    rw [hd] at hbad
    dsimp only at hbad ⊢
    have hempty : b.txdata.length = 0 := by
      cases hb : b.txdata with
      | nil => rfl
      | cons t ts => rw [hb] at hbad; simp at hbad
    unfold indexBlock
    rw [if_pos hempty]

/-- A step on a good block reduces to the batch bookkeeping on the block's
entries. -/
theorem buildStep_good (bs : Nat) (cf : Nat → Bool) (st : BuildState)
    (br : BlockRec) (hg : goodBlock br = true) :
    buildStep bs cf st br = stepCommit bs cf st (blockEntries br) := by
  unfold buildStep
  unfold goodBlock at hg
  cases hd : br.decoded with
  | none => rw [hd] at hg; simp at hg
  | some b =>
    rw [hd] at hg
    dsimp only at hg ⊢
    have hne : ¬b.txdata.length = 0 := by
      cases hb : b.txdata with
      | nil => rw [hb] at hg; simp at hg
      | cons t ts => simp [hb]
    cases hib : indexBlock br.height b with
    | none =>
      unfold indexBlock at hib
      rw [if_neg hne] at hib
      cases hib
    | some es =>
      dsimp only
      have hbe : blockEntries br = es := by
        unfold blockEntries
        rw [hd]
        dsimp only
        rw [hib]
        rfl
      rw [hbe]

/-- Bookkeeping when the incremented counter does not reach a batch boundary:
no commit happens, the entries stay pending. -/
theorem stepCommit_no_commit (bs : Nat) (cf : Nat → Bool) (st : BuildState)
    (es : List TxIndex) (h : ¬(st.blockCounter + 1) % bs = 0) :
    stepCommit bs cf st es =
      Except.ok ⟨st.store, st.txBatch ++ es, st.blockCounter + 1,
        st.commitCount⟩ := by
  unfold stepCommit
  rw [if_neg (by simpa using h)]

/-- Bookkeeping at a batch boundary with a working write transaction: every
pending entry commits atomically and the pending batch resets. -/
theorem stepCommit_commit (bs : Nat) (cf : Nat → Bool) (st : BuildState)
    (es : List TxIndex) (h : (st.blockCounter + 1) % bs = 0)
    (hcf : cf st.commitCount = false) :
    stepCommit bs cf st es =
      Except.ok ⟨commitBatch st.store (st.txBatch ++ es), [],
        st.blockCounter + 1, st.commitCount + 1⟩ := by
  unfold stepCommit
  rw [if_pos (by simpa using h), if_neg (by simp [hcf])]

/-- Bookkeeping at a batch boundary whose write transaction fails: the build
aborts and the store keeps only previously committed batches. -/
theorem stepCommit_commit_fail (bs : Nat) (cf : Nat → Bool) (st : BuildState)
    (es : List TxIndex) (h : (st.blockCounter + 1) % bs = 0)
    (hcf : cf st.commitCount = true) :
    stepCommit bs cf st es = Except.error st.store := by
  unfold stepCommit
  rw [if_pos (by simpa using h), if_pos hcf]

/-- Counter arithmetic: stepping onto a batch boundary. -/
theorem mod_succ_eq_zero (bs c : Nat) (h : c % bs + 1 = bs) : (c + 1) % bs = 0 := by
  rcases Nat.lt_or_ge 1 bs with hbs2 | hbs1
  · rw [Nat.add_mod, Nat.mod_eq_of_lt hbs2, h, Nat.mod_self]
  · have hbs : bs = 1 := by omega
    subst hbs
    exact Nat.mod_one _

/-- Counter arithmetic: stepping strictly inside a batch. -/
theorem mod_succ_lt (bs c : Nat) (h : c % bs + 1 < bs) :
    (c + 1) % bs = c % bs + 1 := by
  rw [Nat.add_mod, Nat.mod_eq_of_lt (show 1 < bs by omega), Nat.mod_eq_of_lt h]

/-- A partial batch of good blocks (not reaching the batch boundary) followed
by a failing block aborts with the store unchanged: nothing pending from the
current batch is ever visible. -/
theorem buildLoop_partial_fail (bs : Nat) (cf : Nat → Bool) (bad : BlockRec)
    (hbad : goodBlock bad = false) (rest : List BlockRec) :
    ∀ (mid : List BlockRec) (st : BuildState),
      (∀ br ∈ mid, goodBlock br = true) →
      st.blockCounter % bs + mid.length < bs →
      buildLoop bs cf (mid ++ bad :: rest) st = Except.error st.store := by
  intro mid
  induction mid with
  | nil =>
    intro st _ _
    have h1 : buildLoop bs cf ([] ++ bad :: rest) st =
        (match buildStep bs cf st bad with
         | Except.error s => Except.error s
         | Except.ok st₁ => buildLoop bs cf rest st₁) := rfl
    rw [h1, buildStep_bad bs cf st bad hbad]
  | cons g mid' ih =>
    intro st hgood hlt
    have h1 : buildLoop bs cf ((g :: mid') ++ bad :: rest) st =
        (match buildStep bs cf st g with
         | Except.error s => Except.error s
         | Except.ok st₁ => buildLoop bs cf (mid' ++ bad :: rest) st₁) := rfl
    rw [h1, buildStep_good bs cf st g (hgood g (List.mem_cons_self _ _))]
    have hlt1 : st.blockCounter % bs + 1 < bs := by
      rw [List.length_cons] at hlt
      omega
    have hmod := mod_succ_lt bs st.blockCounter hlt1
    have hnc : ¬(st.blockCounter + 1) % bs = 0 := by
      rw [hmod]
      omega
    rw [stepCommit_no_commit bs cf st _ hnc]
    dsimp only
    exact ih ⟨st.store, st.txBatch ++ blockEntries g, st.blockCounter + 1,
        st.commitCount⟩
      (fun br hbr => hgood br (List.mem_cons_of_mem _ hbr))
      (by dsimp only
          rw [hmod]
          simp only [List.length_cons] at hlt ⊢
          omega)

/-- Running exactly the blocks that finish the current batch, all good, with a
working write transaction: everything pending commits and the batch resets. -/
theorem buildLoop_full_batch (bs : Nat) (cf : Nat → Bool) (hbs : 0 < bs) :
    ∀ (blk : List BlockRec) (st : BuildState),
      (∀ br ∈ blk, goodBlock br = true) →
      st.blockCounter % bs + blk.length = bs →
      cf st.commitCount = false →
      buildLoop bs cf blk st =
        Except.ok ⟨commitBatch st.store (st.txBatch ++ allEntries blk), [],
          st.blockCounter + blk.length, st.commitCount + 1⟩ := by
  intro blk
  induction blk with
  | nil =>
    intro st _ hlen _
    exfalso
    rw [List.length_nil] at hlen
    have := Nat.mod_lt st.blockCounter hbs
    omega
  | cons g blk' ih =>
    intro st hgood hlen hcf
    have h1 : buildLoop bs cf (g :: blk') st =
        (match buildStep bs cf st g with
         | Except.error s => Except.error s
         | Except.ok st₁ => buildLoop bs cf blk' st₁) := rfl
    rw [h1, buildStep_good bs cf st g (hgood g (List.mem_cons_self _ _))]
    cases blk' with
    | nil =>
      have hmod0 : (st.blockCounter + 1) % bs = 0 :=
        mod_succ_eq_zero bs st.blockCounter
          (by rw [List.length_cons, List.length_nil] at hlen; omega)
      rw [stepCommit_commit bs cf st _ hmod0 hcf]
      dsimp only
      rw [allEntries_cons, allEntries_nil, List.append_nil]
      rfl
    | cons g2 blk'' =>
      have hlt1 : st.blockCounter % bs + 1 < bs := by
        simp only [List.length_cons] at hlen
        omega
      have hmod := mod_succ_lt bs st.blockCounter hlt1
      have hnc : ¬(st.blockCounter + 1) % bs = 0 := by
        rw [hmod]
        omega
      rw [stepCommit_no_commit bs cf st _ hnc]
      dsimp only
      rw [ih ⟨st.store, st.txBatch ++ blockEntries g, st.blockCounter + 1,
            st.commitCount⟩
          (fun br hbr => hgood br (List.mem_cons_of_mem _ hbr))
          (by dsimp only
              rw [hmod]
              simp only [List.length_cons] at hlen ⊢
              omega)
          hcf]
      have hc : st.blockCounter + 1 + (g2 :: blk'').length =
          st.blockCounter + (g :: g2 :: blk'').length := by
        simp only [List.length_cons]
        omega
      simp only [allEntries_cons, List.append_assoc, hc]

/-- Reaching a batch boundary whose write transaction fails: the whole build
aborts with the store as it was before the batch started accumulating. -/
theorem buildLoop_commit_fail (bs : Nat) (cf : Nat → Bool) (hbs : 0 < bs)
    (rest : List BlockRec) :
    ∀ (full : List BlockRec) (st : BuildState),
      (∀ br ∈ full, goodBlock br = true) →
      st.blockCounter % bs + full.length = bs →
      cf st.commitCount = true →
      buildLoop bs cf (full ++ rest) st = Except.error st.store := by
  intro full
  induction full with
  | nil =>
    intro st _ hlen _
    exfalso
    rw [List.length_nil] at hlen
    have := Nat.mod_lt st.blockCounter hbs
    omega
  | cons g full' ih =>
    intro st hgood hlen hcf
    have h1 : buildLoop bs cf ((g :: full') ++ rest) st =
        (match buildStep bs cf st g with
         | Except.error s => Except.error s
         | Except.ok st₁ => buildLoop bs cf (full' ++ rest) st₁) := rfl
    rw [h1, buildStep_good bs cf st g (hgood g (List.mem_cons_self _ _))]
    cases full' with
    | nil =>
      have hmod0 : (st.blockCounter + 1) % bs = 0 :=
        mod_succ_eq_zero bs st.blockCounter
          (by rw [List.length_cons, List.length_nil] at hlen; omega)
      rw [stepCommit_commit_fail bs cf st _ hmod0 hcf]
    | cons g2 full'' =>
      have hlt1 : st.blockCounter % bs + 1 < bs := by
        simp only [List.length_cons] at hlen
        omega
      have hmod := mod_succ_lt bs st.blockCounter hlt1
      have hnc : ¬(st.blockCounter + 1) % bs = 0 := by
        rw [hmod]
        omega
      rw [stepCommit_no_commit bs cf st _ hnc]
      dsimp only
      exact ih ⟨st.store, st.txBatch ++ blockEntries g, st.blockCounter + 1,
          st.commitCount⟩
        (fun br hbr => hgood br (List.mem_cons_of_mem _ hbr))
        (by dsimp only
            rw [hmod]
            simp only [List.length_cons] at hlen ⊢
            omega)
        hcf

/-- Running a sequence of whole good batches from a batch-aligned state: each
batch commits in turn. -/
theorem buildLoop_batches (bs : Nat) (cf : Nat → Bool) (hbs : 0 < bs) :
    ∀ (batches : List (List BlockRec)) (st : BuildState),
      (∀ blk ∈ batches, blk.length = bs ∧ ∀ br ∈ blk, goodBlock br = true) →
      st.txBatch = [] →
      st.blockCounter % bs = 0 →
      (∀ i, i < batches.length → cf (st.commitCount + i) = false) →
      buildLoop bs cf batches.flatten st =
        Except.ok ⟨commitBatch st.store (allEntries batches.flatten), [],
          st.blockCounter + bs * batches.length,
          st.commitCount + batches.length⟩ := by
  intro batches
  induction batches with
  | nil =>
    intro st _ hbatch _ _
    cases st with
    | mk store txB c cc =>
      dsimp only at hbatch
      subst hbatch
      rw [show ([] : List (List BlockRec)).flatten = [] from rfl, allEntries_nil,
        List.length_nil, Nat.mul_zero, Nat.add_zero, Nat.add_zero]
      rfl
  | cons blk batches' ih =>
    intro st hgood hbatch hmod hcf
    rw [List.flatten_cons, buildLoop_append]
    have hblk := hgood blk (List.mem_cons_self _ _)
    rw [buildLoop_full_batch bs cf hbs blk st hblk.2
      (by rw [hmod, hblk.1]; omega)
      (by have := hcf 0 (by rw [List.length_cons]; omega)
          rwa [Nat.add_zero] at this)]
    dsimp only
    rw [ih ⟨commitBatch st.store (st.txBatch ++ allEntries blk), [],
          st.blockCounter + blk.length, st.commitCount + 1⟩
        (fun b hb => hgood b (List.mem_cons_of_mem _ hb))
        rfl
        (by dsimp only
            rw [hblk.1, Nat.add_mod, hmod, Nat.mod_self]
            rfl)
        (fun i hi => by
          dsimp only
          have := hcf (i + 1) (by rw [List.length_cons]; omega)
          rwa [show st.commitCount + 1 + i = st.commitCount + (i + 1) from by omega])]
    rw [hbatch, List.nil_append, ← commitBatch_append, ← allEntries_append,
      ← List.flatten_cons]
    have hc1 : st.blockCounter + blk.length + bs * batches'.length =
        st.blockCounter + bs * (blk :: batches').length := by
      rw [List.length_cons, hblk.1]
      ring
    have hc2 : st.commitCount + 1 + batches'.length =
        st.commitCount + (blk :: batches').length := by
      rw [List.length_cons]
      omega
    rw [hc1, hc2]

/-- Slot updates preserve the slot count. -/
theorem runSched_length {α : Type} (f : Nat → α) :
    ∀ (order : List Nat) (slots : List (Option α)),
      (order.foldl (fun sl i => sl.set i (some (f i))) slots).length =
        slots.length := by
  intro order
  induction order with
  | nil => intro slots; rfl
  | cons i rest ih =>
    intro slots
    rw [List.foldl_cons, ih, List.length_set]

/-- A slot's final content after the workers completed: worker `j`'s result if
`j` ran at all, untouched otherwise — whatever the completion order was. -/
theorem runSched_getElem {α : Type} (f : Nat → α) :
    ∀ (order : List Nat) (slots : List (Option α)) (j : Nat),
      (∀ i ∈ order, i < slots.length) →
      (order.foldl (fun sl i => sl.set i (some (f i))) slots)[j]? =
        if j ∈ order then some (some (f j)) else slots[j]? := by
  intro order
  induction order with
  | nil =>
    intro slots j _
    rw [if_neg (by simp)]
    rfl
  | cons i rest ih =>
    intro slots j hbound
    rw [List.foldl_cons, ih (slots.set i (some (f i))) j
      (fun i' hi' => by
        rw [List.length_set]
        exact hbound i' (List.mem_cons_of_mem _ hi'))]
    by_cases hjr : j ∈ rest
    · rw [if_pos hjr, if_pos (List.mem_cons_of_mem _ hjr)]
    · rw [if_neg hjr]
      by_cases hji : j = i
      · subst hji
        rw [if_pos (List.mem_cons_self _ _), List.getElem?_set, if_pos rfl,
          if_pos (hbound j (List.mem_cons_self _ _))]
      · rw [if_neg (by simp [List.mem_cons, hji, hjr]), List.getElem?_set,
          if_neg (fun h => hji h.symm)]

/-- Collecting fully-filled slots returns the plain results in slot order. -/
theorem collectSlots_map_some {α : Type} (l : List α) :
    collectSlots (l.map some) = some l := by
  induction l with
  | nil => rfl
  | cons a rest ih =>
    rw [List.map_cons]
    show (collectSlots (rest.map some)).map _ = _
    rw [ih]
    rfl

/-- The parallel collect is schedule-independent: every complete completion
order yields exactly the sequential in-index-order map. -/
theorem parMap_perm {α : Type} (n : Nat) (f : Nat → α) (order : List Nat)
    (h : order.Perm (List.range n)) :
    parMap n f order = some ((List.range n).map f) := by
  have hmem : ∀ i, i ∈ order ↔ i < n := by
    intro i
    rw [h.mem_iff, List.mem_range]
  have hbound : ∀ i ∈ order, i < (List.replicate n (none : Option α)).length := by
    intro i hi
    rw [List.length_replicate]
    exact (hmem i).mp hi
  have hrun : runSched n f order = (List.range n).map (some ∘ f) := by
    apply List.ext_getElem?
    intro j
    unfold runSched
    rw [runSched_getElem f order _ j hbound]
    by_cases hj : j < n
    · rw [if_pos ((hmem j).mpr hj), List.getElem?_map, List.getElem?_range hj]
      rfl
    · rw [if_neg (fun hin => hj ((hmem j).mp hin)), List.getElem?_replicate,
        if_neg hj, List.getElem?_map,
        List.getElem?_eq_none (by rw [List.length_range]; omega)]
      rfl
  unfold parMap
  rw [hrun,
    show (List.range n).map (some ∘ f) = ((List.range n).map f).map some from
      (List.map_map _ _ _).symm,
    collectSlots_map_some]

/-- With a complete completion order, the scheduled block indexing agrees with
the sequential one. -/
theorem indexBlockSched_eq (order : List Nat) (h : Int) (b : Block)
    (hperm : order.Perm (List.range (b.txdata.length - 1))) :
    indexBlockSched order h b = indexBlock h b := by
  unfold indexBlockSched indexBlock
  by_cases h0 : b.txdata.length = 0
  · rw [if_pos h0, if_pos h0]
  · rw [if_neg h0, if_neg h0, parMap_perm _ _ _ hperm]

/-- With complete per-block completion orders, the scheduled build loop agrees
with the sequential one from any state. -/
theorem buildLoopSched_eq (bs : Nat) (cf : Nat → Bool) :
    ∀ (chain : List BlockRec) (orders : List (List Nat)) (st : BuildState),
      schedsOk chain orders = true →
      buildLoopSched bs cf chain orders st = buildLoop bs cf chain st := by
  intro chain
  induction chain with
  | nil =>
    intro orders st _
    rfl
  | cons br rest ih =>
    intro orders st hok
    unfold schedsOk at hok
    rw [Bool.and_eq_true] at hok
    obtain ⟨hok1, hok2⟩ := hok
    have h1 : buildLoopSched bs cf (br :: rest) orders st =
        (match buildStepSched bs cf (orders.headD []) st br with
         | Except.error s => Except.error s
         | Except.ok st₁ => buildLoopSched bs cf rest orders.tail st₁) := rfl
    have h2 : buildLoop bs cf (br :: rest) st =
        (match buildStep bs cf st br with
         | Except.error s => Except.error s
         | Except.ok st₁ => buildLoop bs cf rest st₁) := rfl
    rw [h1, h2]
    have hstep : buildStepSched bs cf (orders.headD []) st br =
        buildStep bs cf st br := by
      unfold buildStepSched buildStep
      cases hd : br.decoded with
      | none => rfl
      | some b =>
        dsimp only
        rw [hd] at hok1
        dsimp only at hok1
        rw [indexBlockSched_eq (orders.headD []) br.height b
          (List.isPerm_iff.mp hok1)]
    rw [hstep]
    cases buildStep bs cf st br with
    | error s => rfl
    | ok st₁ => exact ih orders.tail st₁ hok2

/-- With complete per-block completion orders, the scheduled build equals the
sequential build. -/
theorem buildSched_eq (bs : Nat) (cf : Nat → Bool) (chain : List BlockRec)
    (orders : List (List Nat)) (hok : schedsOk chain orders = true) :
    buildSched bs cf chain orders = build bs cf chain := by
  unfold buildSched build
  rw [buildLoopSched_eq bs cf chain orders ⟨[], [], 0, 0⟩ hok]

/-- C7: the persisted build result is deterministic. Any two complete worker
completion orders (rayon's parallel decode within batches) yield identical
results, both equal to the sequential in-order build over the same chain
state. -/
theorem claim_C7_deterministic (bs : Nat) (cf : Nat → Bool)
    (chain : List BlockRec) (orders₁ orders₂ : List (List Nat))
    (h₁ : schedsOk chain orders₁ = true) (h₂ : schedsOk chain orders₂ = true) :
    buildSched bs cf chain orders₁ = buildSched bs cf chain orders₂ ∧
    buildSched bs cf chain orders₁ = build bs cf chain := by
  rw [buildSched_eq bs cf chain orders₁ h₁, buildSched_eq bs cf chain orders₂ h₂]
  exact ⟨rfl, rfl⟩

/-- Witness for C7: one block with two non-coinbase transactions, whose two
decode workers finish in either order, produces the same store. -/
theorem claim_C7_witness :
    schedsOk [(⟨1, some ⟨[⟨"c"⟩, ⟨"a"⟩, ⟨"b"⟩]⟩⟩ : BlockRec)] [[0, 1]] = true ∧
    schedsOk [(⟨1, some ⟨[⟨"c"⟩, ⟨"a"⟩, ⟨"b"⟩]⟩⟩ : BlockRec)] [[1, 0]] = true ∧
    buildSched 1000 (fun _ => false)
        [⟨1, some ⟨[⟨"c"⟩, ⟨"a"⟩, ⟨"b"⟩]⟩⟩] [[0, 1]] =
      buildSched 1000 (fun _ => false)
        [⟨1, some ⟨[⟨"c"⟩, ⟨"a"⟩, ⟨"b"⟩]⟩⟩] [[1, 0]] :=
  ⟨rfl, rfl,
   (claim_C7_deterministic 1000 (fun _ => false)
     [⟨1, some ⟨[⟨"c"⟩, ⟨"a"⟩, ⟨"b"⟩]⟩⟩] [[0, 1]] [[1, 0]] rfl rfl).1⟩

/-- C5: batch commits are all-or-nothing. After any number of fully committed
good batches, if a block of the current batch fails to decode (first
conjunct), or the current batch's own write transaction fails (second
conjunct), the build aborts with the store holding exactly the previously
committed batches — no entry of the failing batch is visible. -/
theorem claim_C5_batch_atomicity (bs : Nat) (hbs : 0 < bs)
    (batches : List (List BlockRec))
    (hbatches : ∀ blk ∈ batches, blk.length = bs ∧
      ∀ br ∈ blk, goodBlock br = true) :
    (∀ (mid : List BlockRec) (bad : BlockRec) (rest : List BlockRec),
      mid.length < bs → (∀ br ∈ mid, goodBlock br = true) →
      goodBlock bad = false →
      build bs (fun _ => false) (batches.flatten ++ (mid ++ bad :: rest)) =
        Except.error (commitBatch [] (allEntries batches.flatten))) ∧
    (∀ (full rest : List BlockRec),
      full.length = bs → (∀ br ∈ full, goodBlock br = true) →
      build bs (fun n => n == batches.length)
          (batches.flatten ++ (full ++ rest)) =
        Except.error (commitBatch [] (allEntries batches.flatten))) := by
  constructor
  · intro mid bad rest hmidlen hmidgood hbad
    unfold build
    rw [buildLoop_append,
      buildLoop_batches bs (fun _ => false) hbs batches ⟨[], [], 0, 0⟩ hbatches
        rfl (Nat.zero_mod bs) (fun i _ => rfl)]
    dsimp only
    rw [buildLoop_partial_fail bs (fun _ => false) bad hbad rest mid _ hmidgood
      (by dsimp only
          rw [Nat.zero_add, Nat.mul_mod_right]
          omega)]
  · intro full rest hfulllen hfullgood
    unfold build
    rw [buildLoop_append,
      buildLoop_batches bs (fun n => n == batches.length) hbs batches
        ⟨[], [], 0, 0⟩ hbatches rfl (Nat.zero_mod bs)
        (fun i hi => by
          dsimp only
          rw [Nat.zero_add]
          simp only [beq_eq_false_iff_ne, ne_eq]
          omega)]
    dsimp only
    rw [buildLoop_commit_fail bs (fun n => n == batches.length) hbs rest full _
      hfullgood
      (by dsimp only
          rw [Nat.zero_add, Nat.mul_mod_right, hfulllen]
          omega)
      (by dsimp only
          rw [Nat.zero_add]
          simp)]

/-- Witness for C5 with batch size 1: one committed batch (height 5), then a
failing block — the store holds exactly the first batch's entry; likewise when
the second batch's commit fails. -/
theorem claim_C5_witness :
    0 < 1 ∧
    build 1 (fun _ => false)
        ([[(⟨5, some ⟨[⟨"cb"⟩, ⟨"xx"⟩]⟩⟩ : BlockRec)]].flatten ++
          ([] ++ (⟨4, none⟩ : BlockRec) :: [])) =
      Except.error
        (commitBatch [] (allEntries
          [[(⟨5, some ⟨[⟨"cb"⟩, ⟨"xx"⟩]⟩⟩ : BlockRec)]].flatten)) ∧
    build 1 (fun n => n == 1)
        ([[(⟨5, some ⟨[⟨"cb"⟩, ⟨"xx"⟩]⟩⟩ : BlockRec)]].flatten ++
          ([(⟨4, some ⟨[⟨"c4"⟩, ⟨"yy"⟩]⟩⟩ : BlockRec)] ++ [])) =
      Except.error
        (commitBatch [] (allEntries
          [[(⟨5, some ⟨[⟨"cb"⟩, ⟨"xx"⟩]⟩⟩ : BlockRec)]].flatten)) :=
  ⟨Nat.one_pos,
   (claim_C5_batch_atomicity 1 Nat.one_pos [[⟨5, some ⟨[⟨"cb"⟩, ⟨"xx"⟩]⟩⟩]]
       (by decide)).1 [] ⟨4, none⟩ [] (by decide) (by decide) (by decide),
   (claim_C5_batch_atomicity 1 Nat.one_pos [[⟨5, some ⟨[⟨"cb"⟩, ⟨"xx"⟩]⟩⟩]]
       (by decide)).2 [⟨4, some ⟨[⟨"c4"⟩, ⟨"yy"⟩]⟩⟩] [] (by decide) (by decide)⟩

/-- C3: a block with `N ≥ 2` transactions contributes exactly `N − 1` locator
entries, whose position values form the contiguous range `0..N-2`, each keyed
by the identifier of the transaction at block index `position + 1`. -/
theorem claim_C3_index_entries (h : Int) (b : Block) (hn : 2 ≤ b.txdata.length) :
    ∃ es, indexBlock h b = some es ∧
      es.length = b.txdata.length - 1 ∧
      es.map (fun e => e.positionInBlock) = List.range (b.txdata.length - 1) ∧
      ∀ e ∈ es, e.blockHeight = h ∧
        ∃ (hlt : e.positionInBlock + 1 < b.txdata.length),
          e.txid = (b.txdata.get ⟨e.positionInBlock + 1, hlt⟩).txid := by
  have h0 : ¬b.txdata.length = 0 := by omega
  refine ⟨(List.range (b.txdata.length - 1)).map (txIndexOf h b), ?_, ?_, ?_, ?_⟩
  · unfold indexBlock
    rw [if_neg h0]
  · rw [List.length_map, List.length_range]
  · rw [List.map_map]
    have h1 : ((fun e => e.positionInBlock) ∘ txIndexOf h b) = fun i => i := by
      funext i
      rfl
    rw [h1, List.map_id']
  · intro e he
    rw [List.mem_map] at he
    obtain ⟨i, hi, rfl⟩ := he
    rw [List.mem_range] at hi
    have hlt : i + 1 < b.txdata.length := by omega
    refine ⟨rfl, hlt, ?_⟩
    show (b.txdata.getD (i + 1) default).txid = _
    rw [List.getD_eq_getElem b.txdata default hlt]
    rfl

/-- Witness for C3 on a concrete three-transaction block at height 7. -/
theorem claim_C3_witness :
    2 ≤ (Block.mk [⟨"cb"⟩, ⟨"aa"⟩, ⟨"bb"⟩]).txdata.length ∧
    (∃ es, indexBlock 7 (Block.mk [⟨"cb"⟩, ⟨"aa"⟩, ⟨"bb"⟩]) = some es ∧
      es.length = (Block.mk [⟨"cb"⟩, ⟨"aa"⟩, ⟨"bb"⟩]).txdata.length - 1 ∧
      es.map (fun e => e.positionInBlock) =
        List.range ((Block.mk [⟨"cb"⟩, ⟨"aa"⟩, ⟨"bb"⟩]).txdata.length - 1) ∧
      ∀ e ∈ es, e.blockHeight = 7 ∧
        ∃ (hlt : e.positionInBlock + 1 < (Block.mk [⟨"cb"⟩, ⟨"aa"⟩, ⟨"bb"⟩]).txdata.length),
          e.txid = ((Block.mk [⟨"cb"⟩, ⟨"aa"⟩, ⟨"bb"⟩]).txdata.get
            ⟨e.positionInBlock + 1, hlt⟩).txid) :=
  ⟨by decide, claim_C3_index_entries 7 (Block.mk [⟨"cb"⟩, ⟨"aa"⟩, ⟨"bb"⟩]) (by decide)⟩

/-- C6: a completed build holds exactly one entry per identifier that appeared
as a non-coinbase transaction on the walked chain (the key set is exactly
those identifiers, and keys are unique), and the value stored under any
identifier is the one written latest during the build — last-write-wins. -/
theorem claim_C6_store_inventory (bs : Nat) (cf : Nat → Bool)
    (chain : List BlockRec) (s : Store) (h : build bs cf chain = Except.ok s) :
    (∀ k, (storeGet s k).isSome = true ↔ k ∈ nonCoinbaseTxids chain) ∧
    ((s.map Prod.fst).Nodup) ∧
    (∀ k, storeGet s k = lastWrite (allEntries chain) k) := by
  have hs := build_ok_store bs cf chain s h
  subst hs
  refine ⟨?_, nodup_commitBatch _ _ (by simp), ?_⟩
  · intro k
    rw [storeGet_commitBatch, show storeGet [] k = none from rfl, Option.or_none,
      lastWrite_isSome, ← allEntries_map_txid]
    constructor
    · rintro ⟨e, he, rfl⟩
      exact List.mem_map.mpr ⟨e, he, rfl⟩
    · intro hk
      obtain ⟨e, he, rfl⟩ := List.mem_map.mp hk
      exact ⟨e, he, rfl⟩
  · intro k
    rw [storeGet_commitBatch, show storeGet [] k = none from rfl, Option.or_none]

/-- Witness for C6 on the spec's concrete two-block scenario (tip at height 2
with one non-coinbase transaction, height 1 with two). -/
theorem claim_C6_witness :
    ((storeGet [("cc", ⟨2, 0⟩), ("aa", ⟨1, 0⟩), ("bb", ⟨1, 1⟩)] "aa").isSome = true ↔
      "aa" ∈ nonCoinbaseTxids
        [⟨2, some ⟨[⟨"cb2"⟩, ⟨"cc"⟩]⟩⟩, ⟨1, some ⟨[⟨"cb1"⟩, ⟨"aa"⟩, ⟨"bb"⟩]⟩⟩]) ∧
    (([("cc", (⟨2, 0⟩ : TxIndexEntry)), ("aa", ⟨1, 0⟩), ("bb", ⟨1, 1⟩)].map
        Prod.fst).Nodup) :=
  ⟨(claim_C6_store_inventory 1000 (fun _ => false)
      [⟨2, some ⟨[⟨"cb2"⟩, ⟨"cc"⟩]⟩⟩, ⟨1, some ⟨[⟨"cb1"⟩, ⟨"aa"⟩, ⟨"bb"⟩]⟩⟩]
      [("cc", ⟨2, 0⟩), ("aa", ⟨1, 0⟩), ("bb", ⟨1, 1⟩)] rfl).1 "aa",
   (claim_C6_store_inventory 1000 (fun _ => false)
      [⟨2, some ⟨[⟨"cb2"⟩, ⟨"cc"⟩]⟩⟩, ⟨1, some ⟨[⟨"cb1"⟩, ⟨"aa"⟩, ⟨"bb"⟩]⟩⟩]
      [("cc", ⟨2, 0⟩), ("aa", ⟨1, 0⟩), ("bb", ⟨1, 1⟩)] rfl).2.1⟩

/-- Entries of a chain decompose blockwise. -/
theorem mem_allEntries {e : TxIndex} {chain : List BlockRec} :
    e ∈ allEntries chain ↔ ∃ br ∈ chain, e ∈ blockEntries br := by
  induction chain with
  | nil =>
    constructor
    · intro h; cases h
    · rintro ⟨br, hbr, _⟩; cases hbr
  | cons br rest ih =>
    rw [allEntries_cons, List.mem_append, ih]
    constructor
    · rintro (h | ⟨b2, hb2, he2⟩)
      · exact ⟨br, List.mem_cons_self _ _, h⟩
      · exact ⟨b2, List.mem_cons_of_mem _ hb2, he2⟩
    · rintro ⟨b2, hb2, he2⟩
      rcases List.mem_cons.mp hb2 with rfl | hb2'
      · exact Or.inl he2
      · exact Or.inr ⟨b2, hb2', he2⟩

/-- Over a walk with strictly decreasing heights, the last-written entry for a
key comes from the last containing block — the one with minimal height. -/
theorem lastWrite_min_height (k : String) :
    ∀ (chain : List BlockRec),
      List.Pairwise (fun a b => a > b) (chain.map (fun br => br.height)) →
      (∃ br ∈ chain, blockContains k br = true) →
      ∃ e, lastWrite (allEntries chain) k = some e ∧
        (∃ br ∈ chain, blockContains k br = true ∧ br.height = e.blockHeight) ∧
        (∀ br ∈ chain, blockContains k br = true → e.blockHeight ≤ br.height) := by
  intro chain
  induction chain with
  | nil =>
    rintro _ ⟨br, hbr, _⟩
    cases hbr
  | cons br rest ih =>
    intro hpw hex
    rw [List.map_cons, List.pairwise_cons] at hpw
    obtain ⟨hgt, hpw'⟩ := hpw
    rw [allEntries_cons, lastWrite_append]
    by_cases hr : ∃ b2 ∈ rest, blockContains k b2 = true
    · obtain ⟨e, he, hsrc, hmin⟩ := ih hpw' hr
      refine ⟨e, by rw [he]; rfl, ?_, ?_⟩
      · obtain ⟨b2, hb2, hc2, hh2⟩ := hsrc
        exact ⟨b2, List.mem_cons_of_mem _ hb2, hc2, hh2⟩
      · intro b3 hb3 hc3
        rcases List.mem_cons.mp hb3 with rfl | hb3'
        · obtain ⟨b2, hb2, hc2, hh2⟩ := hsrc
          have h1 : b3.height > b2.height :=
            hgt b2.height (List.mem_map.mpr ⟨b2, hb2, rfl⟩)
          omega
        · exact hmin b3 hb3' hc3
    · have hbrc : blockContains k br = true := by
        obtain ⟨b0, hb0, hc0⟩ := hex
        rcases List.mem_cons.mp hb0 with rfl | h0
        · exact hc0
        · exact absurd ⟨b0, h0, hc0⟩ hr
      have hnone : lastWrite (allEntries rest) k = none := by
        cases hl : lastWrite (allEntries rest) k with
        | none => rfl
        | some v =>
          obtain ⟨e0, he0, hk0, _⟩ := lastWrite_eq_some _ _ _ hl
          obtain ⟨b2, hb2, he2⟩ := mem_allEntries.mp he0
          exact absurd ⟨b2, hb2, (blockContains_iff k b2).mpr ⟨e0, he2, hk0⟩⟩ hr
      rw [hnone, Option.none_or]
      obtain ⟨e1, he1, hk1⟩ := (blockContains_iff k br).mp hbrc
      have hsome : (lastWrite (blockEntries br) k).isSome = true :=
        (lastWrite_isSome _ _).mpr ⟨e1, he1, hk1⟩
      cases hv : lastWrite (blockEntries br) k with
      | none => rw [hv] at hsome; cases hsome
      | some v =>
        obtain ⟨e2, he2, hk2, hv2⟩ := lastWrite_eq_some _ _ _ hv
        have hh2 : v.blockHeight = br.height := by
          rw [hv2]
          exact mem_blockEntries_height he2
        refine ⟨v, rfl, ⟨br, List.mem_cons_self _ _, hbrc, hh2.symm⟩, ?_⟩
        intro b3 hb3 hc3
        rcases List.mem_cons.mp hb3 with rfl | hb3'
        · rw [hh2]
        · exact absurd ⟨b3, hb3', hc3⟩ hr

/-- C10: the walk runs tip-down (strictly decreasing heights) and each put
overwrites the key's previous value, so for any identifier occurring as a
non-coinbase transaction — in particular one occurring in more than one
block — the entry surviving a completed build records the occurrence at the
lowest block height: the later write during the build is the earlier block of
the chain. -/
theorem claim_C10_lowest_height_wins (bs : Nat) (cf : Nat → Bool)
    (chain : List BlockRec) (s : Store) (k : String)
    (hok : build bs cf chain = Except.ok s)
    (hdesc : List.Pairwise (fun a b => a > b) (chain.map (fun br => br.height)))
    (hocc : ∃ br ∈ chain, blockContains k br = true) :
    ∃ e, storeGet s k = some e ∧
      (∃ br ∈ chain, blockContains k br = true ∧ br.height = e.blockHeight) ∧
      (∀ br ∈ chain, blockContains k br = true → e.blockHeight ≤ br.height) := by
  have hs := build_ok_store bs cf chain s hok
  subst hs
  obtain ⟨e, he, hsrc, hmin⟩ := lastWrite_min_height k chain hdesc hocc
  refine ⟨e, ?_, hsrc, hmin⟩
  rw [storeGet_commitBatch, show storeGet [] k = none from rfl, Option.or_none, he]

/-- Witness for C10: "dd" occurs in both blocks of a two-block chain (heights
2 and 1); the surviving entry records height 1, the lowest. -/
theorem claim_C10_witness :
    ∃ e, storeGet [("dd", ⟨1, 0⟩)] "dd" = some e ∧
      (∃ br ∈ [(⟨2, some ⟨[⟨"c2"⟩, ⟨"dd"⟩]⟩⟩ : BlockRec), ⟨1, some ⟨[⟨"c1"⟩, ⟨"dd"⟩]⟩⟩],
        blockContains "dd" br = true ∧ br.height = e.blockHeight) ∧
      (∀ br ∈ [(⟨2, some ⟨[⟨"c2"⟩, ⟨"dd"⟩]⟩⟩ : BlockRec), ⟨1, some ⟨[⟨"c1"⟩, ⟨"dd"⟩]⟩⟩],
        blockContains "dd" br = true → e.blockHeight ≤ br.height) :=
  claim_C10_lowest_height_wins 1000 (fun _ => false)
    [⟨2, some ⟨[⟨"c2"⟩, ⟨"dd"⟩]⟩⟩, ⟨1, some ⟨[⟨"c1"⟩, ⟨"dd"⟩]⟩⟩]
    [("dd", ⟨1, 0⟩)] "dd" rfl (by decide) (by decide)

/-- C8: every network argument other than the four fixed variants
(case-insensitively) is rejected as a configuration error before any chain,
store or index work happens — the outcome does not depend on the chain at
all — and each of the four variants selects the corresponding chain type. -/
theorem claim_C8_network_selection (network : String) :
    (parseNetwork network = none ↔
      strToLower network ∉ (["mainnet", "testnet", "regtest", "signet"] : List String)) ∧
    (parseNetwork network = none →
      ∀ (batchSize : Nat) (commitFails : Nat → Bool) (chain : List BlockRec),
        runBuild network batchSize commitFails chain =
          Except.error ("Invalid network type: " ++ network)) ∧
    (strToLower network = "mainnet" → parseNetwork network = some ChainType.MAINNET) ∧
    (strToLower network = "testnet" → parseNetwork network = some ChainType.TESTNET) ∧
    (strToLower network = "regtest" → parseNetwork network = some ChainType.REGTEST) ∧
    (strToLower network = "signet" → parseNetwork network = some ChainType.SIGNET) ∧
    (∀ ct, parseNetwork network = some ct →
      ∀ (batchSize : Nat) (commitFails : Nat → Bool) (chain : List BlockRec)
        (s : Store), build batchSize commitFails chain = Except.ok s →
        runBuild network batchSize commitFails chain = Except.ok (ct, s)) := by
  unfold runBuild parseNetwork
  split_ifs with h1 h2 h3 h4 <;> simp_all

/-- Witness for C8 at concrete inputs: "Bogus" is rejected without looking at
the chain, and "SigNet" selects the signet chain type. -/
theorem claim_C8_witness :
    runBuild "Bogus" 1000 (fun _ => false) [] =
      Except.error ("Invalid network type: " ++ "Bogus") ∧
    parseNetwork "SigNet" = some ChainType.SIGNET := by
  refine ⟨(claim_C8_network_selection "Bogus").2.1 (by decide) 1000 (fun _ => false) [],
    (claim_C8_network_selection "SigNet").2.2.2.2.2.1 (by decide)⟩

/-- C4, evaluated at the failing input: a coinbase-only block contributes zero
entries without failing, but a zero-transaction block makes
`block.txdata.len() - 1` underflow, aborting the build instead of contributing
no entries as the claim requires. -/
theorem claim_C4_empty_block_underflow :
    indexBlock 0 ⟨[⟨"cb"⟩]⟩ = some [] ∧
    build 1000 (fun _ => false) [⟨7, some ⟨[⟨"cb"⟩]⟩⟩] = Except.ok [] ∧
    indexBlock 0 ⟨[]⟩ = none ∧
    build 1000 (fun _ => false) [⟨0, some ⟨[]⟩⟩] = Except.error [] :=
  ⟨rfl, rfl, rfl, rfl⟩

/-- C1, evaluated at the failing input: the identifier "aa" is indexed with
position 0 (it sits at block index 1, after the coinbase "cb"), yet the
retrieval code returns `block.txdata[0]` — the coinbase — rather than the
transaction at index `position_in_block + 1` that the claim states. -/
theorem claim_C1_locate_uses_unshifted_position :
    build 1000 (fun _ => false) [⟨1, some ⟨[⟨"cb"⟩, ⟨"aa"⟩]⟩⟩] =
      Except.ok [("aa", ⟨1, 0⟩)] ∧
    locate [("aa", ⟨1, 0⟩)] [⟨1, some ⟨[⟨"cb"⟩, ⟨"aa"⟩]⟩⟩] "aa" =
      LocateResult.found ⟨"cb"⟩ ∧
    (⟨[⟨"cb"⟩, ⟨"aa"⟩]⟩ : Block).txdata[0 + 1]? = some ⟨"aa"⟩ ∧
    Tx.mk "cb" ≠ Tx.mk "aa" :=
  ⟨rfl, rfl, rfl, by decide⟩

/-- C2, evaluated at the failing input: "aa" is an indexed identifier of the
built store, yet `locate` returns a transaction whose recomputed identifier is
"cb" ≠ "aa" — the round-trip stability law fails on the code because of the
retrieval off-by-one. -/
theorem claim_C2_roundtrip_violated :
    build 1000 (fun _ => false) [⟨1, some ⟨[⟨"cb"⟩, ⟨"aa"⟩]⟩⟩] =
      Except.ok [("aa", ⟨1, 0⟩)] ∧
    "aa" ∈ nonCoinbaseTxids [⟨1, some ⟨[⟨"cb"⟩, ⟨"aa"⟩]⟩⟩] ∧
    (∃ t, locate [("aa", ⟨1, 0⟩)] [⟨1, some ⟨[⟨"cb"⟩, ⟨"aa"⟩]⟩⟩] "aa" =
        LocateResult.found t ∧ t.txid ≠ "aa") :=
  ⟨rfl, by decide, ⟨⟨"cb"⟩, rfl, by decide⟩⟩

/-- C9, evaluated at the failing input: an entry whose recorded block can no
longer be fetched (no block at height 5 in the first case; undecodable bytes
in the second) sends the retrieval path into `todo!()` / `.unwrap()` — a
panic, not a `ReconstructionError` reported to the caller. -/
theorem claim_C9_stale_index_panics :
    locate [("aa", ⟨5, 0⟩)] [⟨1, some ⟨[⟨"cb"⟩, ⟨"aa"⟩]⟩⟩] "aa" =
      LocateResult.crash ∧
    locate [("aa", ⟨1, 0⟩)] [⟨1, none⟩] "aa" = LocateResult.crash ∧
    locate [] [⟨1, some ⟨[⟨"cb"⟩, ⟨"aa"⟩]⟩⟩] "zz" = LocateResult.notFound :=
  ⟨rfl, rfl, rfl⟩

end Korndex
